import Mathlib

/-!
Verification development for the supplier-homologation document generator
(app.py). The Python source is shallowly embedded: strings are lists of
characters, python-docx runs and paragraphs are structures, dicts are ordered
association lists with Python's insertion-order update semantics, and every
function is translated from the source line by line.
-/

namespace App

/-- Character strings are modelled as lists of Unicode characters. -/
abbrev Str := List Char

/-- Coercion from Lean string literals to the Str model. -/
def str (s : String) : Str := s.data

/-- Combining-mark constructor used by the NFD table. -/
def mark (n : Nat) : Char := Char.ofNat n

/-- NFD decomposition table for every Latin-1 letter with a canonical
decomposition: unicodedata.normalize NFD maps each of these to a base letter
plus a combining mark. Characters not in the table (all ASCII characters in
particular) decompose to themselves. -/
def nfdTable : List (Char × List Char) :=
  [('À', ['A', mark 0x300]), ('Á', ['A', mark 0x301]), ('Â', ['A', mark 0x302]),
   ('Ã', ['A', mark 0x303]), ('Ä', ['A', mark 0x308]), ('Å', ['A', mark 0x30A]),
   ('Ç', ['C', mark 0x327]), ('È', ['E', mark 0x300]), ('É', ['E', mark 0x301]),
   ('Ê', ['E', mark 0x302]), ('Ë', ['E', mark 0x308]), ('Ì', ['I', mark 0x300]),
   ('Í', ['I', mark 0x301]), ('Î', ['I', mark 0x302]), ('Ï', ['I', mark 0x308]),
   ('Ñ', ['N', mark 0x303]), ('Ò', ['O', mark 0x300]), ('Ó', ['O', mark 0x301]),
   ('Ô', ['O', mark 0x302]), ('Õ', ['O', mark 0x303]), ('Ö', ['O', mark 0x308]),
   ('Ù', ['U', mark 0x300]), ('Ú', ['U', mark 0x301]), ('Û', ['U', mark 0x302]),
   ('Ü', ['U', mark 0x308]), ('Ý', ['Y', mark 0x301]), ('à', ['a', mark 0x300]),
   ('á', ['a', mark 0x301]), ('â', ['a', mark 0x302]), ('ã', ['a', mark 0x303]),
   ('ä', ['a', mark 0x308]), ('å', ['a', mark 0x30A]), ('ç', ['c', mark 0x327]),
   ('è', ['e', mark 0x300]), ('é', ['e', mark 0x301]), ('ê', ['e', mark 0x302]),
   ('ë', ['e', mark 0x308]), ('ì', ['i', mark 0x300]), ('í', ['i', mark 0x301]),
   ('î', ['i', mark 0x302]), ('ï', ['i', mark 0x308]), ('ñ', ['n', mark 0x303]),
   ('ò', ['o', mark 0x300]), ('ó', ['o', mark 0x301]), ('ô', ['o', mark 0x302]),
   ('õ', ['o', mark 0x303]), ('ö', ['o', mark 0x308]), ('ù', ['u', mark 0x300]),
   ('ú', ['u', mark 0x301]), ('û', ['u', mark 0x302]), ('ü', ['u', mark 0x308]),
   ('ý', ['y', mark 0x301]), ('ÿ', ['y', mark 0x308])]

/-- Per-character NFD decomposition (see nfdTable). -/
def nfdChar (c : Char) : List Char :=
  match nfdTable.find? (fun e => e.1 == c) with
  | some e => e.2
  | none => [c]

/-- Unicode nonspacing-mark test (category Mn) for the combining diacritical
marks block, the only marks nfdChar can produce. -/
def isMn (c : Char) : Bool :=
  decide (0x300 ≤ c.toNat) && decide (c.toNat ≤ 0x36F)

/-- Port of strip_accents (app.py lines 21-22): NFD-decompose and drop the
combining marks. -/
def strip_accents (s : Str) : Str :=
  ((s.map nfdChar).flatten).filter (fun c => !(isMn c))

/-- ASCII letter-or-digit test: the character class kept by the regex
substitution in normalize_key (app.py line 26). -/
def isAsciiAlnum (c : Char) : Bool :=
  (decide (65 ≤ c.toNat) && decide (c.toNat ≤ 90)) ||
  (decide (97 ≤ c.toNat) && decide (c.toNat ≤ 122)) ||
  (decide (48 ≤ c.toNat) && decide (c.toNat ≤ 57))

/-- Scanner for the regex substitution in normalize_key (app.py line 26):
every maximal run of characters outside A-Za-z0-9 becomes a single
underscore. The Bool state records whether the scanner is inside a run of
replaced characters, so only the first character of a run emits the
underscore. -/
def subNonAlnumGo : Bool → Str → Str
  | _, [] => []
  | inRun, c :: cs =>
    if isAsciiAlnum c then c :: subNonAlnumGo false cs
    else if inRun then subNonAlnumGo true cs
    else '_' :: subNonAlnumGo true cs

/-- Regex substitution in normalize_key (app.py line 26). -/
def subNonAlnum (s : Str) : Str := subNonAlnumGo false s

/-- Python str.strip with an underscore argument (app.py line 27): drop leading
underscores, then drop trailing underscores. -/
def stripUnderscores (s : Str) : Str :=
  List.rdropWhile (fun c => c == '_') (s.dropWhile (fun c => c == '_'))

/-- Port of normalize_key (app.py lines 24-27). The final upper step is ASCII
upcasing, which agrees with Python str.upper on the post-regex alphabet
A-Za-z0-9 and underscore. -/
def normalize_key (s : Str) : Str :=
  (stripUnderscores (subNonAlnum (strip_accents s))).map Char.toUpper

/-- Python str.isspace class for the characters relevant here (space, tab,
newline, carriage return, vertical tab, form feed), used by str.strip and
str.split with no arguments. -/
def pyIsSpace (c : Char) : Bool :=
  c == ' ' || c == '\t' || c == '\n' || c == '\r' ||
  c == Char.ofNat 0x0B || c == Char.ofNat 0x0C

/-- Python str.strip with no argument: drop leading and trailing whitespace. -/
def pyStrip (s : Str) : Str :=
  List.rdropWhile pyIsSpace (s.dropWhile pyIsSpace)

/-- Scanner of PLACEHOLDER_REGEX.findall (app.py lines 19 and 29-30): scan
left to right for non-overlapping matches of two opening braces, one or more
non-closing-brace characters, then two closing braces, returning the captured
key of each match; a failed attempt resumes the scan one character later. The
fuel argument bounds the number of scan steps: every step consumes at least
one character of the text, so any fuel at least the text length gives the
unbounded scanner's behavior. -/
def findPlaceholdersGo : Nat → Str → List Str
  | 0, _ => []
  | _ + 1, [] => []
  | fuel + 1, '{' :: '{' :: rest =>
    let key := rest.takeWhile (fun c => c != '}')
    match rest.dropWhile (fun c => c != '}') with
    | '}' :: '}' :: rest2 =>
      if key.isEmpty then findPlaceholdersGo fuel ('{' :: rest)
      else key :: findPlaceholdersGo fuel rest2
    | _ => findPlaceholdersGo fuel ('{' :: rest)
  | fuel + 1, _ :: rest => findPlaceholdersGo fuel rest

/-- Port of PLACEHOLDER_REGEX.findall (app.py lines 19 and 29-30). -/
def findPlaceholders (s : Str) : List Str := findPlaceholdersGo s.length s

/-- Scanner of Python str.replace for a nonempty pattern: replace every
non-overlapping occurrence, scanning left to right (app.py line 69). The fuel
argument bounds the number of scan steps; every step consumes at least one
character, so any fuel at least the text length gives the unbounded
behavior. -/
def replaceAllGo (o : Char) (os new : Str) : Nat → Str → Str
  | 0, s => s
  | _ + 1, [] => []
  | fuel + 1, c :: cs =>
    if (o :: os).isPrefixOf (c :: cs)
    then new ++ replaceAllGo o os new fuel ((c :: cs).drop (o :: os).length)
    else c :: replaceAllGo o os new fuel cs

/-- Python str.replace. The program only ever calls it with a pattern of the
form of a brace-delimited key, which is nonempty; the empty-pattern case is
therefore mapped to the identity. -/
def replaceAll (old new s : Str) : Str :=
  match old with
  | [] => s
  | o :: os => replaceAllGo o os new s.length s

/-- Ordered dictionary with Str keys, modelling a Python dict. -/
abbrev DictOf (α : Type) := List (Str × α)

/-- Python dict values in this program are scalars already stringified when
used; they are modelled as strings. -/
abbrev Dict := DictOf Str

/-- Python dict lookup via get, returning none when the key is absent. -/
def dget {α : Type} (m : DictOf α) (k : Str) : Option α :=
  match m with
  | [] => none
  | (k', v) :: rest => if k' = k then some v else dget rest k

/-- Python dict item assignment: an existing key keeps its position and
receives the new value; a new key is appended at the end. -/
def dset {α : Type} (m : DictOf α) (k : Str) (v : α) : DictOf α :=
  match m with
  | [] => [(k, v)]
  | (k', v') :: rest => if k' = k then (k, v) :: rest else (k', v') :: dset rest k v

/-- Python dict membership test. -/
def dmem {α : Type} (m : DictOf α) (k : Str) : Bool := (dget m k).isSome

/-- Text run of the document model (python-docx Run): text plus optionally set
font name, size in points, and bold flag. -/
structure Run where
  text : Str
  fontName : Option Str
  size : Option Nat
  bold : Option Bool
deriving DecidableEq

/-- Paragraph of the document model: an ordered list of runs. -/
structure Paragraph where
  runs : List Run
deriving DecidableEq

/-- Effective text of a paragraph: concatenation of its runs' text in order,
matching python-docx Paragraph.text and the join at app.py line 57. -/
def paragraphText (p : Paragraph) : Str := (p.runs.map Run.text).flatten

/-- Value resolution for one placeholder key (app.py lines 64-68): the literal
key first, then the normalized key, otherwise the empty string. -/
def resolveKey (mapping : Dict) (rawKey : Str) : Str :=
  match dget mapping rawKey with
  | some v => v
  | none =>
    match dget mapping (normalize_key rawKey) with
    | some v => v
    | none => []

/-- Port of replace_placeholders_in_paragraph (app.py lines 56-78). The Python
function mutates the runs in place and returns whether anything changed; here
the updated paragraph is returned together with that flag. -/
def replacePlaceholdersInParagraph (p : Paragraph) (mapping : Dict) :
    Paragraph × Bool :=
  let full := paragraphText p
  let phs := findPlaceholders full
  if phs.isEmpty then (p, false)
  else
    let newFull := phs.foldl (fun acc raw =>
      let rawKey := pyStrip raw
      let val := resolveKey mapping rawKey
      replaceAll ('{' :: '{' :: (rawKey ++ ['}', '}'])) val acc) full
    if newFull ≠ full then
      match p.runs with
      | [] => (⟨[⟨newFull, none, none, none⟩]⟩, true)
      | r :: rs => (⟨{ r with text := newFull } :: rs.map (fun r2 => { r2 with text := [] })⟩, true)
    else (p, false)

/-- Python str.lower restricted to ASCII upcased letters, as applied to
paragraph text and exception fragments (app.py line 43). -/
def lowerStr (s : Str) : Str := s.map Char.toLower

/-- Port of paragraph_contains_any (app.py lines 41-43): some nonempty needle,
stripped and lowered, occurs as a substring of the lowered paragraph text. -/
def paragraph_contains_any (p : Paragraph) (needles : List Str) : Bool :=
  let t := paragraphText p
  needles.any (fun n =>
    !(pyStrip n).isEmpty && (decide <| List.IsInfix (lowerStr (pyStrip n)) (lowerStr t)))

/-- Port of apply_font_to_paragraph (app.py lines 45-54): set font name, size
and bold on every run. The XML rFonts attributes written at lines 48-52 carry
the same font name and are subsumed by the fontName field of the Run model. -/
def apply_font_to_paragraph (p : Paragraph) (fontName : Str) (sizePt : Nat)
    (bold : Bool) : Paragraph :=
  ⟨p.runs.map (fun r =>
    { r with fontName := some fontName, size := some sizePt, bold := some bold })⟩

/-- Paragraph-level bold decision of the typography pass (app.py line 154):
bold by default unless a text exception or a normalized-key exception matches
the paragraph's effective text. -/
def paragraphBoldFlag (boldAllByDefault : Bool) (exceptionsContains : List Str)
    (exceptionsPlaceholdersNorm : List Str) (p : Paragraph) : Bool :=
  let isExcText := paragraph_contains_any p exceptionsContains
  let tnorm := normalize_key (paragraphText p)
  let isExcPh := exceptionsPlaceholdersNorm.any (fun k => decide <| List.IsInfix k tnorm)
  !isExcText && !isExcPh && boldAllByDefault

/-- One paragraph of the typography pass in process_one (app.py lines 150-155
and 161-166): compute the bold decision once from the paragraph text, then
apply the font to every run. The exceptionsPlaceholdersNorm argument is the
already-normalized key set built at app.py line 129. -/
def typographyParagraph (fontName : Str) (sizePt : Nat) (boldAllByDefault : Bool)
    (exceptionsContains : List Str) (exceptionsPlaceholdersNorm : List Str)
    (p : Paragraph) : Paragraph :=
  apply_font_to_paragraph p fontName sizePt
    (paragraphBoldFlag boldAllByDefault exceptionsContains exceptionsPlaceholdersNorm p)

/-- Alias table literal from app.py lines 87-96, byte-faithful to the source
file: the accented entries contain the exact characters stored in the file
(a mojibake encoding with the square-root character U+221A followed by a
Latin-1 letter). -/
def aliases : List (Str × List Str) :=
  [ (str "RAZAO_SOCIAL_DO_FORNECEDOR",
      [str "RAZAO_SOCIAL_DO_FORNECEDOR", str "RAZAO_SOCIAL", str "RAZ√ÉO_SOCIAL",
       str "NOME_FORNECEDOR"]),
    (str "RAZ√ÉO_SOCIAL_DO_FORNECEDOR",
      [str "RAZAO_SOCIAL_DO_FORNECEDOR", str "RAZAO_SOCIAL", str "RAZ√ÉO_SOCIAL",
       str "NOME_FORNECEDOR"]),
    (str "Raz√£o_Social_do_Fornecedor",
      [str "RAZAO_SOCIAL_DO_FORNECEDOR", str "RAZAO_SOCIAL", str "RAZ√ÉO_SOCIAL",
       str "NOME_FORNECEDOR"]),
    (str "CNPJ_DO_FORNECEDOR", [str "CNPJ", str "CNPJ_DO_FORNECEDOR"]),
    (str "CNPJ_do_Fornecedor", [str "CNPJ", str "CNPJ_DO_FORNECEDOR"]),
    (str "ENDERECO_DO_FORNECEDOR",
      [str "ENDERECO", str "ENDERE√áO", str "ENDERECO_DO_FORNECEDOR"]),
    (str "Endere√ßo_do_Fornecedor",
      [str "ENDERECO", str "ENDERE√áO", str "ENDERECO_DO_FORNECEDOR"]),
    (str "DATA", [str "DATA", str "DATA_EMISSAO", str "DATA_ATUAL"]) ]

/-- Candidate scan for one alias target (app.py lines 98-107): try the
candidates in order; a candidate present literally in the record, or whose
normalized form is present in the mapping built so far, supplies the value for
the target key and the target's normalized form, and the scan stops there. -/
def aliasLoop (rec : Dict) (target : Str) (m : Dict) : List Str → Dict
  | [] => m
  | c :: cs =>
    match dget rec c with
    | some v => dset (dset m target v) (normalize_key target) v
    | none =>
      match dget m (normalize_key c) with
      | some v => dset (dset m target v) (normalize_key target) v
      | none => aliasLoop rec target m cs

/-- Base insertion pass of build_mapping_for_record (app.py lines 82-84):
every record field is inserted under its literal name and its normalized
name. -/
def baseMapping (rec : Dict) : Dict :=
  rec.foldl (fun m kv => dset (dset m kv.1 kv.2) (normalize_key kv.1) kv.2) []

/-- Port of build_mapping_for_record (app.py lines 80-109): the base insertion
pass followed by the alias pass over the alias table in order. -/
def build_mapping_for_record (rec : Dict) : Dict :=
  (aliases).foldl (fun m ta => aliasLoop rec ta.1 m ta.2) (baseMapping rec)

/-- Character class of the safe_filename regex (app.py line 112): backslash,
slash, colon, asterisk, question mark, double quote, angle brackets, pipe. -/
def isUnsafeChar (c : Char) : Bool :=
  c == '\\' || c == '/' || c == ':' || c == '*' || c == '?' ||
  c == '"' || c == '<' || c == '>' || c == '|'

/-- Scanner for the regex substitution in safe_filename: every maximal run of
unsafe characters becomes one dash; the Bool state records whether the
scanner is inside such a run. -/
def subUnsafeGo : Bool → Str → Str
  | _, [] => []
  | inRun, c :: cs =>
    if isUnsafeChar c then
      if inRun then subUnsafeGo true cs else '-' :: subUnsafeGo true cs
    else c :: subUnsafeGo false cs

/-- Regex substitution in safe_filename (app.py line 112). -/
def subUnsafe (s : Str) : Str := subUnsafeGo false s

/-- Port of safe_filename (app.py lines 111-112): replace unsafe-character
runs with a dash, then strip surrounding whitespace. -/
def safe_filename (s : Str) : Str :=
  pyStrip (subUnsafe s)

/-- Scanner for Python str.split with no argument: collect the maximal
whitespace-free words in order, dropping empty pieces; the accumulator holds
the word currently being read. -/
def splitWsGo (cur : Str) : Str → List Str
  | [] => if cur.isEmpty then [] else [cur]
  | c :: cs =>
    if pyIsSpace c then
      if cur.isEmpty then splitWsGo [] cs else cur :: splitWsGo [] cs
    else splitWsGo (cur ++ [c]) cs

/-- Python str.split with no argument. -/
def splitWs (s : Str) : List Str := splitWsGo [] s

/-- Join a list of words with single spaces. -/
def joinSpaces : List Str → Str
  | [] => []
  | [w] => w
  | w :: w2 :: ws => w ++ ' ' :: joinSpaces (w2 :: ws)

/-- The whitespace collapse at app.py line 178: split on whitespace runs and
rejoin with single spaces, which also trims the ends. -/
def collapseWhitespace (s : Str) : Str := joinSpaces (splitWs s)

/-- Lowered-suffix test of app.py line 179. -/
def endsWithDocx (s : Str) : Bool :=
  decide (List.IsSuffix (str ".docx") (lowerStr s))

/-- Output-name derivation of process_one (app.py lines 174-180): for every
mapping item in insertion order, replace the brace-delimited literal key and
the brace-delimited normalized key by the sanitized value; then collapse
whitespace and append the default extension when absent. -/
def deriveName (filenameTemplate : Str) (mapping : Dict) : Str :=
  let n := mapping.foldl (fun acc kv =>
    let acc1 := replaceAll ('{' :: (kv.1 ++ ['}'])) (safe_filename kv.2) acc
    replaceAll ('{' :: (normalize_key kv.1 ++ ['}'])) (safe_filename kv.2) acc1)
    filenameTemplate
  let n2 := collapseWhitespace n
  if endsWithDocx n2 then n2 else n2 ++ str ".docx"

/-- Document model: the body paragraphs (including table-cell paragraphs,
which iter_all_paragraphs at app.py lines 32-39 visits in order) and the
paragraph lists of the present header and footer regions (app.py lines
142-147); absent regions are simply not in the list. -/
structure Document where
  body : List Paragraph
  regions : List (List Paragraph)
deriving DecidableEq

/-- Substitution pass of process_one (app.py lines 138-147): replace
placeholders in every body paragraph and every region paragraph. -/
def substituteDocument (doc : Document) (mapping : Dict) : Document :=
  ⟨doc.body.map (fun p => (replacePlaceholdersInParagraph p mapping).1),
   doc.regions.map (fun ps =>
     ps.map (fun p => (replacePlaceholdersInParagraph p mapping).1))⟩

/-- Typography pass of process_one (app.py lines 149-166): apply the
typography step to every body paragraph and every region paragraph with the
same policy. -/
def typographyDocument (fontName : Str) (sizePt : Nat) (boldAllByDefault : Bool)
    (exceptionsContains : List Str) (exceptionsPlaceholdersNorm : List Str)
    (doc : Document) : Document :=
  ⟨doc.body.map (typographyParagraph fontName sizePt boldAllByDefault
      exceptionsContains exceptionsPlaceholdersNorm),
   doc.regions.map (fun ps => ps.map (typographyParagraph fontName sizePt
      boldAllByDefault exceptionsContains exceptionsPlaceholdersNorm))⟩

/-- Style and naming configuration of process_one (app.py lines 118-126). -/
structure Config where
  fontName : Str
  fontSize : Nat
  boldAllByDefault : Bool
  exceptionsContains : List Str
  exceptionsPlaceholders : List Str
  filenameTemplate : Str
deriving DecidableEq

/-- Port of the pure core of process_one (app.py lines 118-182): build the
mapping for the record, substitute in all paragraphs, run the typography pass
over the same paragraphs, and derive the output name. Parsing the template
bytes into a Document and serializing the result back to bytes are the
external document library; the processed Document stands in for the output
bytes. The optional PDF branch (app.py lines 185-203) is out of scope. -/
def process_one (template : Document) (rec : Dict) (cfg : Config) :
    Str × Document :=
  let exceptionsPlaceholdersNorm := cfg.exceptionsPlaceholders.map normalize_key
  let mapping := build_mapping_for_record rec
  let d1 := substituteDocument template mapping
  let d2 := typographyDocument cfg.fontName cfg.fontSize cfg.boldAllByDefault
      cfg.exceptionsContains exceptionsPlaceholdersNorm d1
  (deriveName cfg.filenameTemplate mapping, d2)

/-- Batch loop of the UI (app.py lines 294-307): process the records in order
against the same template value and aggregate the named outputs with dict
update, so a later name collision overwrites the earlier entry. -/
def batchLoop (template : Document) (cfg : Config) :
    List Dict → DictOf Document → DictOf Document
  | [], acc => acc
  | rec :: rest, acc =>
    let out := process_one template rec cfg
    batchLoop template cfg rest (dset acc out.1 out.2)

/-! Helper lemmas shared by several results. -/

theorem takeWhile_append_all {p : Char → Bool} {l1 : Str} (l2 : Str)
    (h : ∀ c ∈ l1, p c = true) :
    (l1 ++ l2).takeWhile p = l1 ++ l2.takeWhile p := by
  induction l1 with
  | nil => simp
  | cons c cs ih =>
    have hc := h c (by simp)
    have ht := ih (fun d hd => h d (by simp [hd]))
    simp [List.takeWhile_cons, hc, ht]

theorem dropWhile_append_all {p : Char → Bool} {l1 : Str} (l2 : Str)
    (h : ∀ c ∈ l1, p c = true) :
    (l1 ++ l2).dropWhile p = l2.dropWhile p := by
  induction l1 with
  | nil => simp
  | cons c cs ih =>
    simp only [List.cons_append, List.dropWhile_cons, h c (by simp)]
    exact ih (fun d hd => h d (by simp [hd]))

theorem replaceAllGo_no_match (o : Char) (os new : Str) :
    ∀ (fuel : Nat) (s : Str), ¬ List.IsInfix (o :: os) s →
      replaceAllGo o os new fuel s = s := by
  intro fuel
  induction fuel with
  | zero => intro s _; rfl
  | succ n ih =>
    intro s h
    match s with
    | [] => rfl
    | c :: cs =>
      rw [replaceAllGo]
      rw [if_neg]
      · rw [ih cs (fun hinf => h (hinf.trans ( List.IsSuffix.isInfix (List.suffix_cons c cs))))]
      · intro hpre
        exact h ( List.IsPrefix.isInfix ( List.isPrefixOf_iff_prefix.mp hpre))

theorem replaceAll_no_match (o : Char) (os new : Str) (s : Str)
    (h : ¬ List.IsInfix (o :: os) s) : replaceAll (o :: os) new s = s :=
  replaceAllGo_no_match o os new s.length s h

/-! Character-level lemmas for the normalizer. -/

theorem toNat_ofNat_lt {n : Nat} (h : n < 55296) : (Char.ofNat n).toNat = n := by
  have hv : n.isValidChar := Or.inl h
  rw [Char.ofNat, dif_pos hv]
  simp [Char.ofNatAux, Char.toNat, UInt32.toNat]

theorem nfdChar_of_lt (c : Char) (h : c.toNat < 192) : nfdChar c = [c] := by
  rw [nfdChar]
  cases hf : nfdTable.find? (fun e => e.1 == c) with
  | none => rfl
  | some e =>
    exfalso
    have he := List.find?_some hf
    have hmem := List.mem_of_find?_eq_some hf
    have hc : e.1 = c := by simpa using he
    have hall : ∀ x ∈ nfdTable, 192 ≤ x.1.toNat := by decide
    have h2 := hall e hmem
    rw [hc] at h2
    omega

theorem isMn_of_lt (c : Char) (h : c.toNat < 768) : isMn c = false := by
  rw [isMn, decide_eq_false (by omega)]
  rfl

theorem strip_accents_id_of_lt (l : Str) (h : ∀ c ∈ l, c.toNat < 192) :
    strip_accents l = l := by
  induction l with
  | nil => rfl
  | cons c cs ih =>
    have hc := h c (by simp)
    rw [strip_accents, List.map_cons, List.flatten_cons, List.filter_append]
    rw [nfdChar_of_lt c hc]
    have hmn : isMn c = false := isMn_of_lt c (by omega)
    simp only [List.filter_cons, hmn, Bool.not_false, List.filter_nil, if_true]
    have ht := ih (fun d hd => h d (by simp [hd]))
    rw [strip_accents] at ht
    rw [List.singleton_append, ht]

theorem toUpper_eq_ite (c : Char) :
    Char.toUpper c = if 97 ≤ c.toNat ∧ c.toNat ≤ 122
      then Char.ofNat (c.toNat - 32) else c := by
  rfl

theorem isAsciiAlnum_iff (c : Char) :
    isAsciiAlnum c = true ↔
      (65 ≤ c.toNat ∧ c.toNat ≤ 90) ∨ (97 ≤ c.toNat ∧ c.toNat ≤ 122) ∨
      (48 ≤ c.toNat ∧ c.toNat ≤ 57) := by
  simp [isAsciiAlnum, or_assoc]

theorem toNat_underscore : ('_').toNat = 95 := rfl

theorem toUpper_facts (c : Char) (h : isAsciiAlnum c = true ∨ c = '_') :
    (isAsciiAlnum (Char.toUpper c) = true ∨ Char.toUpper c = '_') ∧
    (Char.toUpper c).toNat < 192 ∧
    Char.toUpper (Char.toUpper c) = Char.toUpper c ∧
    (Char.toUpper c = '_' ↔ c = '_') := by
  by_cases hlow : 97 ≤ c.toNat ∧ c.toNat ≤ 122
  · have hup : Char.toUpper c = Char.ofNat (c.toNat - 32) := by
      rw [toUpper_eq_ite, if_pos hlow]
    have htn : (Char.toUpper c).toNat = c.toNat - 32 := by
      rw [hup]
      exact toNat_ofNat_lt (by omega)
    have halnum : isAsciiAlnum (Char.toUpper c) = true := by
      rw [isAsciiAlnum_iff, htn]
      omega
    refine ⟨Or.inl halnum, by omega, ?_, ?_⟩
    · rw [toUpper_eq_ite (Char.toUpper c), if_neg (by omega)]
    · constructor
      · intro hu
        have h95 : (Char.toUpper c).toNat = 95 := by rw [hu]; rfl
        omega
      · intro hc
        rw [hc] at hlow
        exact absurd hlow (by decide)
  · have hup : Char.toUpper c = c := by
      rw [toUpper_eq_ite, if_neg hlow]
    rw [hup]
    have hlt : c.toNat < 192 := by
      rcases h with h1 | h2
      · rw [isAsciiAlnum_iff] at h1
        omega
      · rw [h2]
        decide
    exact ⟨h, hlt, by rw [hup], Iff.rfl⟩

/-! Structure lemmas for the underscore scanner. -/

/-- Adjacent characters are not both underscores. -/
def NU (a b : Char) : Prop := a ≠ '_' ∨ b ≠ '_'

theorem underscore_not_alnum : isAsciiAlnum '_' = false := rfl

theorem alnum_ne_underscore {c : Char} (h : isAsciiAlnum c = true) : c ≠ '_' := by
  intro hc
  rw [hc] at h
  exact absurd h (by decide)

theorem subNonAlnumGo_mem :
    ∀ (l : Str) (b : Bool) (c : Char), c ∈ subNonAlnumGo b l →
      isAsciiAlnum c = true ∨ c = '_' := by
  intro l
  induction l with
  | nil => intro b c h; simp [subNonAlnumGo] at h
  | cons d cs ih =>
    intro b c h
    by_cases hd : isAsciiAlnum d = true
    · rw [subNonAlnumGo, if_pos hd] at h
      rcases List.mem_cons.mp h with h1 | h2
      · rw [h1]; exact Or.inl hd
      · exact ih false c h2
    · rw [subNonAlnumGo, if_neg hd] at h
      cases b with
      | true =>
        simp only [if_true] at h
        exact ih true c h
      | false =>
        simp only [Bool.false_eq_true, if_false] at h
        rcases List.mem_cons.mp h with h1 | h2
        · exact Or.inr h1
        · exact ih true c h2

theorem subNonAlnumGo_true_head :
    ∀ (l : Str) (c : Char) (cs : Str), subNonAlnumGo true l = c :: cs →
      isAsciiAlnum c = true := by
  intro l
  induction l with
  | nil => intro c cs h; simp [subNonAlnumGo] at h
  | cons d ds ih =>
    intro c cs h
    by_cases hd : isAsciiAlnum d = true
    · rw [subNonAlnumGo, if_pos hd] at h
      injection h with h1 h2
      rw [h1] at hd
      exact hd
    · rw [subNonAlnumGo, if_neg hd, if_pos rfl] at h
      exact ih c cs h

theorem subNonAlnumGo_chain (l : Str) :
    List.Chain' NU (subNonAlnumGo false l) ∧ List.Chain' NU (subNonAlnumGo true l) := by
  induction l with
  | nil => exact ⟨List.chain'_nil, List.chain'_nil⟩
  | cons d cs ih =>
    by_cases hd : isAsciiAlnum d = true
    · have hcons : List.Chain' NU (d :: subNonAlnumGo false cs) := by
        rw [List.chain'_cons']
        exact ⟨fun y _ => Or.inl (alnum_ne_underscore hd), ih.1⟩
      constructor
      · rw [subNonAlnumGo, if_pos hd]; exact hcons
      · rw [subNonAlnumGo, if_pos hd]; exact hcons
    · constructor
      · rw [subNonAlnumGo, if_neg hd]
        simp only [Bool.false_eq_true, if_false]
        rw [List.chain'_cons']
        refine ⟨?_, ih.2⟩
        intro y hy
        cases hgo : subNonAlnumGo true cs with
        | nil => rw [hgo] at hy; simp at hy
        | cons e es =>
          rw [hgo] at hy
          simp only [List.head?_cons, Option.mem_def, Option.some.injEq] at hy
          rw [← hy]
          exact Or.inr (alnum_ne_underscore (subNonAlnumGo_true_head cs e es hgo))
      · rw [subNonAlnumGo, if_neg hd, if_pos rfl]
        exact ih.2

theorem subNonAlnumGo_id (l : Str) :
    ((∀ c ∈ l, isAsciiAlnum c = true ∨ c = '_') → List.Chain' NU l →
      subNonAlnumGo false l = l) ∧
    ((∀ c ∈ l, isAsciiAlnum c = true ∨ c = '_') → List.Chain' NU l →
      (∀ c ∈ l.head?, isAsciiAlnum c = true) → subNonAlnumGo true l = l) := by
  induction l with
  | nil => exact ⟨fun _ _ => rfl, fun _ _ _ => rfl⟩
  | cons d cs ih =>
    have htail : ∀ h : (∀ c ∈ d :: cs, isAsciiAlnum c = true ∨ c = '_'),
        ∀ c ∈ cs, isAsciiAlnum c = true ∨ c = '_' :=
      fun h c hc => h c (by simp [hc])
    constructor
    · intro hmem hchain
      rcases hmem d (by simp) with hd | hd
      · rw [subNonAlnumGo, if_pos hd, ih.1 (htail hmem) hchain.tail]
      · rw [subNonAlnumGo]
        rw [hd, if_neg (by rw [underscore_not_alnum]; exact Bool.false_ne_true)]
        simp only [Bool.false_eq_true, if_false]
        rw [ih.2 (htail hmem) hchain.tail]
        intro c hc
        have hcs := List.mem_of_mem_head? hc
        rcases htail hmem c hcs with h1 | h1
        · exact h1
        · exfalso
          have hnu := (List.chain'_cons'.mp (hd ▸ hchain)).1 c hc
          rcases hnu with h2 | h2
          · exact h2 rfl
          · exact h2 h1
    · intro hmem hchain hhead
      match cs, hmem, hchain, hhead with
      | cs, hmem, hchain, hhead =>
        have hd := hhead d (by simp)
        rw [subNonAlnumGo, if_pos hd, ih.1 (htail hmem) hchain.tail]

/-! Lemmas about the underscore strip. -/

theorem stripUnderscores_subset (l : Str) : ∀ c ∈ stripUnderscores l, c ∈ l := by
  intro c hc
  rw [stripUnderscores] at hc
  have h1 := ( List.rdropWhile_prefix (fun c => c == '_')
    (l.dropWhile (fun c => c == '_'))).sublist.subset hc
  exact (List.dropWhile_suffix (fun c => c == '_')).sublist.subset h1

theorem stripUnderscores_chain (l : Str) (h : List.Chain' NU l) :
    List.Chain' NU (stripUnderscores l) := by
  rw [stripUnderscores]
  exact List.Chain'.prefix (h.suffix (List.dropWhile_suffix _)) ( List.rdropWhile_prefix _ _)

theorem stripUnderscores_head (l : Str) :
    ∀ c ∈ (stripUnderscores l).head?, c ≠ '_' := by
  intro c hc
  rw [stripUnderscores] at hc
  cases ht : List.rdropWhile (fun c => c == '_') (l.dropWhile (fun c => c == '_')) with
  | nil =>
    rw [ht] at hc
    simp at hc
  | cons d ds =>
    rw [ht] at hc
    simp only [List.head?_cons, Option.mem_def, Option.some.injEq] at hc
    obtain ⟨r, hr⟩ := List.rdropWhile_prefix (fun c => c == '_')
      (l.dropWhile (fun c => c == '_'))
    rw [ht] at hr
    have hh := List.head?_dropWhile_not (fun c => c == '_') l
    rw [← hr] at hh
    simp only [List.cons_append, List.head?_cons] at hh
    rw [← hc]
    intro hd
    rw [hd] at hh
    exact absurd hh (by decide)

theorem stripUnderscores_getLast (l : Str) :
    ∀ c ∈ (stripUnderscores l).getLast?, c ≠ '_' := by
  intro c hc
  rw [stripUnderscores] at hc
  rcases List.mem_getLast?_eq_getLast hc with ⟨hne, hL⟩
  have := List.rdropWhile_last_not (fun c => c == '_')
    (l.dropWhile (fun c => c == '_')) hne
  rw [← hL] at this
  intro hcu
  rw [hcu] at this
  exact this (by decide)

theorem stripUnderscores_eq_self (l : Str)
    (hh : ∀ c ∈ l.head?, c ≠ '_') (hl : ∀ c ∈ l.getLast?, c ≠ '_') :
    stripUnderscores l = l := by
  rw [stripUnderscores]
  have hdrop : l.dropWhile (fun c => c == '_') = l := by
    cases l with
    | nil => rfl
    | cons d ds =>
      rw [List.dropWhile_cons, if_neg]
      simp only [beq_iff_eq]
      exact hh d (by simp)
  rw [hdrop, List.rdropWhile_eq_self_iff]
  intro hne
  have := hl (l.getLast hne) (by rw [List.getLast?_eq_getLast l hne]; rfl)
  simpa using this

/-! Transport of the invariants along the final upper-casing. -/

theorem map_toUpper_head (t : Str)
    (hmem : ∀ c ∈ t, isAsciiAlnum c = true ∨ c = '_')
    (h : ∀ c ∈ t.head?, c ≠ '_') :
    ∀ c ∈ (t.map Char.toUpper).head?, c ≠ '_' := by
  intro c hc
  cases t with
  | nil => simp at hc
  | cons d ds =>
    simp only [List.map_cons, List.head?_cons, Option.mem_def, Option.some.injEq] at hc
    rw [← hc]
    intro hu
    exact h d (by simp) (((toUpper_facts d (hmem d (by simp))).2.2.2).mp hu)

theorem map_toUpper_getLast (t : Str)
    (hmem : ∀ c ∈ t, isAsciiAlnum c = true ∨ c = '_')
    (h : ∀ c ∈ t.getLast?, c ≠ '_') :
    ∀ c ∈ (t.map Char.toUpper).getLast?, c ≠ '_' := by
  intro c hc
  rw [List.getLast?_map] at hc
  cases hgl : t.getLast? with
  | none =>
    rw [hgl] at hc
    simp at hc
  | some d =>
    rw [hgl] at hc
    simp only [Option.map_some', Option.mem_def, Option.some.injEq] at hc
    have hd := h d (by rw [hgl]; rfl)
    have hdm : d ∈ t := by
      rcases List.mem_getLast?_eq_getLast (show d ∈ t.getLast? by rw [hgl]; rfl)
        with ⟨hne, heq⟩
      rw [heq]
      exact List.getLast_mem hne
    rw [← hc]
    intro hu
    exact hd (((toUpper_facts d (hmem d hdm)).2.2.2).mp hu)

theorem toUpper_underscore_iff (c : Char) : Char.toUpper c = '_' ↔ c = '_' := by
  by_cases hlow : 97 ≤ c.toNat ∧ c.toNat ≤ 122
  · rw [toUpper_eq_ite, if_pos hlow]
    constructor
    · intro hu
      have h95 : (Char.ofNat (c.toNat - 32)).toNat = 95 := by rw [hu]; rfl
      rw [toNat_ofNat_lt (by omega)] at h95
      omega
    · intro hc
      rw [hc] at hlow
      exact absurd hlow (by decide)
  · rw [toUpper_eq_ite, if_neg hlow]

/-- C5: the key normalizer is a computable total function with empty output on
empty input, and it is idempotent on every string. -/
theorem C5_normalize_key_idempotent :
    (∀ s : Str, normalize_key (normalize_key s) = normalize_key s) ∧
    normalize_key [] = [] := by
  constructor
  · intro s
    have hmem_m : ∀ c ∈ subNonAlnum (strip_accents s),
        isAsciiAlnum c = true ∨ c = '_' :=
      fun c hc => subNonAlnumGo_mem _ false c hc
    have hchain_m : List.Chain' NU (subNonAlnum (strip_accents s)) :=
      (subNonAlnumGo_chain _).1
    have hmem_t : ∀ c ∈ stripUnderscores (subNonAlnum (strip_accents s)),
        isAsciiAlnum c = true ∨ c = '_' :=
      fun c hc => hmem_m c (stripUnderscores_subset _ c hc)
    have hchain_t : List.Chain' NU (stripUnderscores (subNonAlnum (strip_accents s))) :=
      stripUnderscores_chain _ hchain_m
    have hhead_t := stripUnderscores_head (subNonAlnum (strip_accents s))
    have hlast_t := stripUnderscores_getLast (subNonAlnum (strip_accents s))
    have hmem_u : ∀ c ∈ (stripUnderscores (subNonAlnum (strip_accents s))).map Char.toUpper,
        isAsciiAlnum c = true ∨ c = '_' := by
      intro c hc
      rcases List.mem_map.mp hc with ⟨d, hd, rfl⟩
      exact (toUpper_facts d (hmem_t d hd)).1
    have hlt_u : ∀ c ∈ (stripUnderscores (subNonAlnum (strip_accents s))).map Char.toUpper,
        c.toNat < 192 := by
      intro c hc
      rcases List.mem_map.mp hc with ⟨d, hd, rfl⟩
      exact (toUpper_facts d (hmem_t d hd)).2.1
    have hchain_u :
        List.Chain' NU ((stripUnderscores (subNonAlnum (strip_accents s))).map Char.toUpper) := by
      apply List.chain'_map_of_chain' Char.toUpper ?_ hchain_t
      intro a b hab
      rcases hab with ha | hb
      · exact Or.inl (fun h => ha ((toUpper_underscore_iff a).mp h))
      · exact Or.inr (fun h => hb ((toUpper_underscore_iff b).mp h))
    have hacc := strip_accents_id_of_lt _ hlt_u
    have hsub := (subNonAlnumGo_id
      ((stripUnderscores (subNonAlnum (strip_accents s))).map Char.toUpper)).1 hmem_u hchain_u
    have hstrip := stripUnderscores_eq_self
      ((stripUnderscores (subNonAlnum (strip_accents s))).map Char.toUpper)
      (map_toUpper_head _ hmem_t hhead_t) (map_toUpper_getLast _ hmem_t hlast_t)
    have hupper :
        ((stripUnderscores (subNonAlnum (strip_accents s))).map Char.toUpper).map Char.toUpper
          = (stripUnderscores (subNonAlnum (strip_accents s))).map Char.toUpper := by
      rw [List.map_map]
      apply List.map_congr_left
      intro d hd
      exact (toUpper_facts d (hmem_t d hd)).2.2.1
    show normalize_key ((stripUnderscores (subNonAlnum (strip_accents s))).map Char.toUpper)
      = (stripUnderscores (subNonAlnum (strip_accents s))).map Char.toUpper
    rw [normalize_key, hacc]
    rw [show subNonAlnum ((stripUnderscores (subNonAlnum (strip_accents s))).map Char.toUpper)
      = (stripUnderscores (subNonAlnum (strip_accents s))).map Char.toUpper from hsub]
    rw [hstrip, hupper]
  · rfl

/-! Dictionary lemmas for the mapping builder. -/

theorem dget_dset_self {α : Type} (m : DictOf α) (k : Str) (v : α) :
    dget (dset m k v) k = some v := by
  induction m with
  | nil => simp [dset, dget]
  | cons kv rest ih =>
    rw [dset]
    by_cases h : kv.1 = k
    · rw [if_pos h, dget, if_pos rfl]
    · rw [if_neg h, dget, if_neg h]
      exact ih

theorem dget_dset_ne {α : Type} (m : DictOf α) (k k' : Str) (v : α) (h : k' ≠ k) :
    dget (dset m k v) k' = dget m k' := by
  induction m with
  | nil => simp [dset, dget, Ne.symm h]
  | cons kv rest ih =>
    rw [dset]
    by_cases hk : kv.1 = k
    · rw [if_pos hk, dget, dget, if_neg (fun hh => h hh.symm), if_neg (hk ▸ (fun hh => h hh.symm))]
    · rw [if_neg hk, dget, dget]
      by_cases hk' : kv.1 = k'
      · rw [if_pos hk', if_pos hk']
      · rw [if_neg hk', if_neg hk']
        exact ih

/-- One step of the base insertion pass. -/
def baseStep (m : Dict) (kv : Str × Str) : Dict :=
  dset (dset m kv.1 kv.2) (normalize_key kv.1) kv.2

theorem baseMapping_eq_foldl (rec : Dict) :
    baseMapping rec = rec.foldl baseStep [] := rfl

theorem baseStep_sets (m : Dict) (k : Str) (v : Str) :
    dget (baseStep m (k, v)) k = some v ∧
    dget (baseStep m (k, v)) (normalize_key k) = some v := by
  constructor
  · rw [baseStep]
    by_cases h : normalize_key k = k
    · rw [h]
      exact dget_dset_self _ _ _
    · rw [dget_dset_ne _ _ _ _ (fun hh => h hh.symm)]
      exact dget_dset_self _ _ _
  · exact dget_dset_self _ _ _

theorem foldl_baseStep_untouched (l : Dict) :
    ∀ (m : Dict) (key : Str),
      (∀ q ∈ l, q.1 ≠ key ∧ normalize_key q.1 ≠ key) →
      dget (l.foldl baseStep m) key = dget m key := by
  induction l with
  | nil => intro m key _; rfl
  | cons kv rest ih =>
    intro m key h
    rw [List.foldl_cons, ih _ key (fun q hq => h q (by simp [hq]))]
    rw [baseStep, dget_dset_ne _ _ _ _ (fun hh => (h kv (by simp)).2 hh.symm)]
    rw [dget_dset_ne _ _ _ _ (fun hh => (h kv (by simp)).1 hh.symm)]

theorem aliasLoop_found_rec (rec : Dict) (target : Str) (m : Dict) (c : Str)
    (cs : List Str) (v : Str) (h : dget rec c = some v) :
    aliasLoop rec target m (c :: cs)
      = dset (dset m target v) (normalize_key target) v := by
  rw [aliasLoop, h]

theorem aliasLoop_found_norm (rec : Dict) (target : Str) (m : Dict) (c : Str)
    (cs : List Str) (v : Str) (h1 : dget rec c = none)
    (h2 : dget m (normalize_key c) = some v) :
    aliasLoop rec target m (c :: cs)
      = dset (dset m target v) (normalize_key target) v := by
  rw [aliasLoop, h1, h2]

theorem aliasLoop_skip (rec : Dict) (target : Str) (m : Dict) (c : Str)
    (cs : List Str) (h1 : dget rec c = none)
    (h2 : dget m (normalize_key c) = none) :
    aliasLoop rec target m (c :: cs) = aliasLoop rec target m cs := by
  rw [aliasLoop, h1, h2]

theorem aliasLoop_first_match (rec : Dict) (target : Str) (m : Dict) :
    ∀ (cs1 : List Str) (c : Str) (cs2 : List Str) (v : Str),
      (∀ x ∈ cs1, dget rec x = none ∧ dget m (normalize_key x) = none) →
      (dget rec c = some v ∨
        (dget rec c = none ∧ dget m (normalize_key c) = some v)) →
      aliasLoop rec target m (cs1 ++ c :: cs2)
        = dset (dset m target v) (normalize_key target) v := by
  intro cs1
  induction cs1 with
  | nil =>
    intro c cs2 v _ hc
    rcases hc with h | ⟨h1, h2⟩
    · exact aliasLoop_found_rec rec target m c cs2 v h
    · exact aliasLoop_found_norm rec target m c cs2 v h1 h2
  | cons x xs ih =>
    intro c cs2 v hskip hc
    rw [List.cons_append,
      aliasLoop_skip rec target m x _ (hskip x (by simp)).1 (hskip x (by simp)).2]
    exact ih c cs2 v (fun y hy => hskip y (by simp [hy])) hc

theorem aliasLoop_absent (rec : Dict) (target : Str) (m : Dict) :
    ∀ cands : List Str,
      (∀ x ∈ cands, dget rec x = none ∧ dget m (normalize_key x) = none) →
      aliasLoop rec target m cands = m := by
  intro cands
  induction cands with
  | nil => intro _; rfl
  | cons x xs ih =>
    intro h
    rw [aliasLoop_skip rec target m x xs (h x (by simp)).1 (h x (by simp)).2]
    exact ih (fun y hy => h y (by simp [hy]))

/-! Claim theorems. -/

/-- C1: for a Paragraph whose Spans are the split token halves with bold true
on Span 0 and bold false on Span 1, and a mapping containing the key NAME with
value Acme, substitution stores the merged text Acme in Span 0 with Span 0's
bold preserved, and Span 1's text becomes empty with its style preserved: the
first Span's style is authoritative for the merged text. -/
theorem C1_split_token_first_span_style :
    replacePlaceholdersInParagraph
      ⟨[⟨str "\x7b\x7bNA", none, none, some true⟩, ⟨str "ME\x7d\x7d", none, none, some false⟩]⟩
      [(str "NAME", str "Acme")]
    = (⟨[⟨str "Acme", none, none, some true⟩, ⟨[], none, none, some false⟩]⟩, true) := by
  decide

/-- C3: placeholder values resolve as the literal key's mapping entry when
present, otherwise the normalized key's entry when present, otherwise the
empty string; in particular the token UNKNOWN under an empty mapping
substitutes to the empty string and substitution is a total function. -/
theorem C3_unresolved_key_renders_empty :
    (∀ (m : Dict) (k v : Str), dget m k = some v → resolveKey m k = v) ∧
    (∀ (m : Dict) (k : Str), dget m k = none →
      resolveKey m k = (dget m (normalize_key k)).getD []) ∧
    replacePlaceholdersInParagraph ⟨[⟨str "\x7b\x7bUNKNOWN\x7d\x7d", none, none, none⟩]⟩ []
      = (⟨[⟨[], none, none, none⟩]⟩, true) := by
  refine ⟨?_, ?_, ?_⟩
  · intro m k v h
    simp [resolveKey, h]
  · intro m k h
    simp only [resolveKey, h]
    cases dget m (normalize_key k) <;> simp
  · decide

/-- Witness for C3 at concrete inputs: a literally present key resolves to its
value, and an absent literal key falls back to the normalized lookup. -/
theorem C3_unresolved_key_renders_empty_witness :
    resolveKey [(str "A", str "X")] (str "A") = str "X" ∧
    resolveKey [(str "B", str "Y")] (str "A")
      = (dget [(str "B", str "Y")] (normalize_key (str "A"))).getD [] := by
  exact ⟨C3_unresolved_key_renders_empty.1 _ _ _ (by decide),
         C3_unresolved_key_renders_empty.2.1 _ _ (by decide)⟩

/-- C2 counterexample: in the paragraph with Spans holding the greeting text,
the complete token, and the exclamation mark, the only matched token lies
entirely inside Span 1, so the claim predicts Span 0 and Span 2 keep their
text and Span 1 receives the replacement; the code instead writes the whole
rewritten paragraph text into Span 0 and empties both Span 1 and Span 2. -/
theorem C2_counterexample_outside_span_cleared :
    (replacePlaceholdersInParagraph
        ⟨[⟨str "Hi ", none, none, some true⟩, ⟨str "\x7b\x7bA\x7d\x7d", none, none, some false⟩,
          ⟨str "!", none, none, some true⟩]⟩
        [(str "A", str "X")]).1.runs.map Run.text = [str "Hi X!", [], []]
    ∧ [str "Hi X!", [], []] ≠ [str "Hi ", str "X", str "!"] := by
  decide

/-- C2 amended: whenever substitution changes a paragraph with at least one
Span, the entire rewritten paragraph text (not just a matched block) is
written into the first Span with that Span's style fields preserved, and
every other Span of the paragraph (not just those of a matched range) is set
to empty text with its style fields preserved; no Span is deleted or
reordered. -/
theorem C2_amended_first_span_rewrite :
    ∀ (m : Dict) (p : Paragraph) (r : Run) (rs : List Run),
      p.runs = r :: rs →
      (replacePlaceholdersInParagraph p m).2 = true →
      ∃ t, (replacePlaceholdersInParagraph p m).1.runs
            = { r with text := t } :: rs.map (fun x => { x with text := [] }) := by
  intro m p r rs hruns hch
  unfold replacePlaceholdersInParagraph at hch ⊢
  by_cases hphs : (findPlaceholders (paragraphText p)).isEmpty
  · simp [hphs] at hch
  · simp only [hphs, Bool.false_eq_true, if_false] at hch ⊢
    by_cases hne :
        ((findPlaceholders (paragraphText p)).foldl (fun acc raw =>
          let rawKey := pyStrip raw
          let val := resolveKey m rawKey
          replaceAll ('{' :: '{' :: (rawKey ++ ['}', '}'])) val acc)
          (paragraphText p)) ≠ paragraphText p
    · simp only [if_pos hne, hruns] at hch ⊢
      exact ⟨_, rfl⟩
    · simp [if_neg hne] at hch

/-- Witness for C2 amended at a concrete input: the paragraph whose two Spans
hold a complete token and a trailing word is changed by substitution, and the
result keeps the first Span's style with the full rewritten text while the
second Span is emptied. -/
theorem C2_amended_first_span_rewrite_witness :
    ∃ t, (replacePlaceholdersInParagraph
            ⟨[⟨str "\x7b\x7bA\x7d\x7d", none, none, some true⟩, ⟨str " end", some (str "F"), none, none⟩]⟩
            [(str "A", str "X")]).1.runs
          = { text := t, fontName := none, size := none, bold := some true } ::
            [{ text := [], fontName := some (str "F"), size := none, bold := (none : Option Bool) }] := by
  have h := C2_amended_first_span_rewrite [(str "A", str "X")]
    ⟨[⟨str "\x7b\x7bA\x7d\x7d", none, none, some true⟩, ⟨str " end", some (str "F"), none, none⟩]⟩
    ⟨str "\x7b\x7bA\x7d\x7d", none, none, some true⟩ [⟨str " end", some (str "F"), none, none⟩]
    rfl (by decide)
  simpa using h

/-- The token spelled without the padding whitespace does not occur in a
paragraph that spells it with padding, for a nonempty key containing no
braces and no whitespace. -/
theorem padded_token_no_match (k : Str) (hk : k ≠ [])
    (hchars : ∀ c ∈ k, c ≠ '}' ∧ c ≠ '{' ∧ pyIsSpace c = false) :
    ¬ List.IsInfix ('{' :: '{' :: (k ++ ['}', '}']))
        ('{' :: '{' :: ' ' :: (k ++ [' ', '}', '}'])) := by
  rintro ⟨s, t, heq⟩
  rw [List.append_assoc] at heq
  match s with
  | [] =>
    rw [List.nil_append] at heq
    simp only [List.cons_append, List.cons.injEq] at heq
    match k, hk with
    | c :: k2, _ =>
      have hc : c = ' ' := by
        have h3 := heq.2.2
        simp only [List.cons_append, List.cons.injEq] at h3
        exact h3.1
      have hsp := (hchars c (by simp)).2.2
      rw [hc] at hsp
      exact absurd hsp (by decide)
  | [a] =>
    simp only [List.cons_append, List.nil_append, List.cons.injEq] at heq
    have h3 := heq.2.2.1
    exact absurd h3 (by decide)
  | a :: b :: s2 =>
    simp only [List.cons_append, List.cons.injEq] at heq
    have hmem : '{' ∈ s2 ++ '{' :: '{' :: (k ++ ['}', '}'] ++ t) := by
      simp
    rw [heq.2.2] at hmem
    simp only [List.mem_cons, List.mem_append] at hmem
    rcases hmem with h1 | h2 | h3
    · exact absurd h1 (by decide)
    · exact absurd rfl ((hchars '{' h2).2.1)
    · simp at h3

theorem findPlaceholdersGo_nil (f : Nat) : findPlaceholdersGo f [] = [] := by
  cases f <;> rfl

/-- Scanner result on a paragraph that holds one whitespace-padded token: the
single captured key is the padded key. -/
theorem findPlaceholders_padded (k : Str) (hk : k ≠ [])
    (hch : ∀ c ∈ k, (c != '}') = true) :
    findPlaceholders ('{' :: '{' :: ' ' :: (k ++ [' ', '}', '}']))
      = [' ' :: (k ++ [' '])] := by
  have htake : List.takeWhile (fun c => c != '}') (' ' :: (k ++ [' ', '}', '}']))
      = ' ' :: (k ++ [' ']) := by
    rw [show (' ' :: (k ++ [' ', '}', '}'])) = ([' '] ++ k) ++ [' ', '}', '}'] by simp]
    rw [takeWhile_append_all ([' ', '}', '}'])]
    · simp
    · intro c hc
      rcases List.mem_append.mp hc with h1 | h2
      · simp at h1
        rw [h1]
        rfl
      · exact hch c h2
  have hdrop : List.dropWhile (fun c => c != '}') (' ' :: (k ++ [' ', '}', '}']))
      = ['}', '}'] := by
    rw [show (' ' :: (k ++ [' ', '}', '}'])) = ([' '] ++ k ++ [' ']) ++ ['}', '}'] by simp]
    rw [dropWhile_append_all (['}', '}'])]
    · rfl
    · intro c hc
      simp only [List.append_assoc, List.mem_append] at hc
      rcases hc with h1 | h2 | h3
      · simp at h1
        rw [h1]
        rfl
      · exact hch c h2
      · simp at h3
        rw [h3]
        rfl
  have hlen : ('{' :: '{' :: ' ' :: (k ++ [' ', '}', '}'])).length = k.length + 5 + 1 := by
    simp only [List.length_cons, List.length_append, List.length_nil]
  rw [findPlaceholders, hlen]
  rw [findPlaceholdersGo]
  rw [htake, hdrop]
  simp [findPlaceholdersGo_nil]

/-- Python strip on the padded key recovers the key when the key itself has no
whitespace at its ends. -/
theorem pyStrip_padded (k : Str) (hk : k ≠ [])
    (hsp : ∀ c ∈ k, pyIsSpace c = false) :
    pyStrip (' ' :: (k ++ [' '])) = k := by
  rw [pyStrip]
  have hdrop : List.dropWhile pyIsSpace (' ' :: (k ++ [' '])) = k ++ [' '] := by
    rw [List.dropWhile_cons]
    simp only [show pyIsSpace ' ' = true from rfl, if_true]
    match k, hk with
    | c :: k2, _ =>
      rw [List.cons_append, List.dropWhile_cons]
      simp [hsp c (by simp)]
  rw [hdrop]
  rw [List.rdropWhile_concat_pos _ _ _ rfl]
  rw [List.rdropWhile_eq_self_iff]
  intro hne
  simp [hsp _ (List.getLast_mem hne)]

/-- C10: a placeholder token whose key is written with padding whitespace is
looked up under the stripped key, but the in-text replacement targets the
unpadded spelling, which does not occur; the padded token is left in place,
and a paragraph with no other effective token is returned unchanged with the
changed flag false, while another unpadded token in the same paragraph is
still replaced. -/
theorem C10_padded_key_left_unreplaced :
    (∀ (k : Str) (m : Dict) (f : Option Str) (sz : Option Nat) (b : Option Bool),
      k ≠ [] →
      (∀ c ∈ k, c ≠ '}' ∧ c ≠ '{' ∧ pyIsSpace c = false) →
      replacePlaceholdersInParagraph
          ⟨[⟨'{' :: '{' :: ' ' :: (k ++ [' ', '}', '}']), f, sz, b⟩]⟩ m
        = (⟨[⟨'{' :: '{' :: ' ' :: (k ++ [' ', '}', '}']), f, sz, b⟩]⟩, false)) ∧
    replacePlaceholdersInParagraph ⟨[⟨str "\x7b\x7b NAME \x7d\x7d \x7b\x7bX\x7d\x7d", none, none, none⟩]⟩
        [(str "NAME", str "Acme"), (str "X", str "Y")]
      = (⟨[⟨str "\x7b\x7b NAME \x7d\x7d Y", none, none, none⟩]⟩, true) := by
  constructor
  · intro k m f sz b hk hch
    have hfull : paragraphText ⟨[⟨'{' :: '{' :: ' ' :: (k ++ [' ', '}', '}']), f, sz, b⟩]⟩
        = '{' :: '{' :: ' ' :: (k ++ [' ', '}', '}']) := by
      simp [paragraphText]
    have hfp := findPlaceholders_padded k hk (fun c hc => by
      simp only [bne_iff_ne, ne_eq]
      exact (hch c hc).1)
    have hstrip := pyStrip_padded k hk (fun c hc => (hch c hc).2.2)
    have hrepl : replaceAll ('{' :: '{' :: (k ++ ['}', '}'])) (resolveKey m k)
        ('{' :: '{' :: ' ' :: (k ++ [' ', '}', '}']))
        = '{' :: '{' :: ' ' :: (k ++ [' ', '}', '}']) :=
      replaceAll_no_match _ _ _ _ (padded_token_no_match k hk hch)
    simp only [replacePlaceholdersInParagraph, hfull, hfp, List.isEmpty_cons,
      Bool.false_eq_true, if_false, List.foldl_cons, List.foldl_nil, hstrip, hrepl,
      ne_eq, not_true_eq_false, if_false]
  · decide

/-- Witness for C10 at the concrete padded token with the key NAME present in
the mapping: the paragraph is returned unchanged and the changed flag is
false. -/
theorem C10_padded_key_left_unreplaced_witness :
    replacePlaceholdersInParagraph
        ⟨[⟨'{' :: '{' :: ' ' :: (str "NAME" ++ [' ', '}', '}']), none, none, some true⟩]⟩
        [(str "NAME", str "Acme")]
      = (⟨[⟨'{' :: '{' :: ' ' :: (str "NAME" ++ [' ', '}', '}']), none, none, some true⟩]⟩,
         false) :=
  C10_padded_key_left_unreplaced.1 (str "NAME") [(str "NAME", str "Acme")]
    none none (some true) (by decide) (by decide)

/-- C4: the typography step sets font name and size unconditionally on every
Span; the bold decision is computed once per paragraph and applied uniformly
to every Span; and a paragraph matching a configured text exception, or a
normalized-key exception, receives bold false on every Span regardless of the
default. -/
theorem C4_paragraph_level_bold_decision :
    (∀ (fn : Str) (sz : Nat) (bd : Bool) (excC excP : List Str) (p : Paragraph),
      (typographyParagraph fn sz bd excC excP p).runs
        = p.runs.map (fun r =>
            { r with fontName := some fn, size := some sz,
                     bold := some (paragraphBoldFlag bd excC excP p) })) ∧
    (∀ (bd : Bool) (excC excP : List Str) (p : Paragraph),
      paragraph_contains_any p excC = true → paragraphBoldFlag bd excC excP p = false) ∧
    (∀ (bd : Bool) (excC excP : List Str) (p : Paragraph),
      excP.any (fun k => decide <| List.IsInfix k (normalize_key (paragraphText p))) = true →
      paragraphBoldFlag bd excC excP p = false) := by
  refine ⟨?_, ?_, ?_⟩
  · intro fn sz bd excC excP p
    rfl
  · intro bd excC excP p h
    simp [paragraphBoldFlag, h]
  · intro bd excC excP p h
    simp [paragraphBoldFlag, h]

/-- Witness for C4 at a concrete paragraph matching both a text exception and
a normalized-key exception: every Span gets the configured font and size and
bold false even though the default is bold true. -/
theorem C4_paragraph_level_bold_decision_witness :
    (typographyParagraph (str "Calibri") 11 true [str "exc"] [str "EXC"]
        ⟨[⟨str "an exc here", none, none, some true⟩, ⟨str "!", none, none, none⟩]⟩).runs
      = [⟨str "an exc here", some (str "Calibri"), some 11, some false⟩,
         ⟨str "!", some (str "Calibri"), some 11, some false⟩] ∧
    paragraphBoldFlag true [str "exc"] [str "EXC"]
        ⟨[⟨str "an exc here", none, none, some true⟩, ⟨str "!", none, none, none⟩]⟩ = false := by
  have h1 := C4_paragraph_level_bold_decision.1 (str "Calibri") 11 true [str "exc"] [str "EXC"]
    ⟨[⟨str "an exc here", none, none, some true⟩, ⟨str "!", none, none, none⟩]⟩
  have h2 := C4_paragraph_level_bold_decision.2.1 true [str "exc"] [str "EXC"]
    ⟨[⟨str "an exc here", none, none, some true⟩, ⟨str "!", none, none, none⟩]⟩ (by decide)
  constructor
  · rw [h1, h2]
    decide
  · exact h2

/-- C6: the mapping builder inserts every record field under its literal and
normalized names (shown for any field whose keys are not overwritten by a
later field); the alias pass tries the candidates of a target in priority
order, copies the value of the first candidate found — literally in the
record or through its normalized form in the mapping — to the target key and
the target's normalized form, ignoring the remaining candidates; a target
none of whose candidates is present leaves the mapping unchanged, so the
target is simply absent; and build_mapping_for_record is exactly the base
pass followed by the alias pass over the fixed table. -/
theorem C6_mapping_builder_inserts_and_aliases :
    (∀ (l1 : Dict) (k v : Str) (l2 : Dict),
      (∀ q ∈ l2, q.1 ≠ k ∧ normalize_key q.1 ≠ k) →
      dget (baseMapping (l1 ++ (k, v) :: l2)) k = some v) ∧
    (∀ (l1 : Dict) (k v : Str) (l2 : Dict),
      (∀ q ∈ l2, q.1 ≠ normalize_key k ∧ normalize_key q.1 ≠ normalize_key k) →
      dget (baseMapping (l1 ++ (k, v) :: l2)) (normalize_key k) = some v) ∧
    (∀ (rec : Dict) (target : Str) (m : Dict) (cs1 : List Str) (c : Str)
        (cs2 : List Str) (v : Str),
      (∀ x ∈ cs1, dget rec x = none ∧ dget m (normalize_key x) = none) →
      (dget rec c = some v ∨
        (dget rec c = none ∧ dget m (normalize_key c) = some v)) →
      aliasLoop rec target m (cs1 ++ c :: cs2)
        = dset (dset m target v) (normalize_key target) v) ∧
    (∀ (rec : Dict) (target : Str) (m : Dict) (cands : List Str),
      (∀ x ∈ cands, dget rec x = none ∧ dget m (normalize_key x) = none) →
      aliasLoop rec target m cands = m) ∧
    (∀ rec : Dict, build_mapping_for_record rec
      = aliases.foldl (fun m ta => aliasLoop rec ta.1 m ta.2) (baseMapping rec)) ∧
    (dget (build_mapping_for_record [(str "Razão_Social_do_Fornecedor", str "Acme Ltda")])
        (str "RAZAO_SOCIAL_DO_FORNECEDOR") = some (str "Acme Ltda") ∧
     dget (build_mapping_for_record [(str "Razão_Social_do_Fornecedor", str "Acme Ltda")])
        (str "DATA") = none) := by
  refine ⟨?_, ?_, aliasLoop_first_match, aliasLoop_absent, fun _ => rfl, by decide⟩
  · intro l1 k v l2 h
    rw [baseMapping_eq_foldl, List.foldl_append, List.foldl_cons]
    rw [foldl_baseStep_untouched l2 _ k h]
    exact (baseStep_sets _ k v).1
  · intro l1 k v l2 h
    rw [baseMapping_eq_foldl, List.foldl_append, List.foldl_cons]
    rw [foldl_baseStep_untouched l2 _ (normalize_key k) h]
    exact (baseStep_sets _ k v).2

/-- Witness for C6 at concrete inputs: a record field is found under both its
literal and normalized keys; a first candidate match found through the record
fixes the alias target's value with later candidates ignored; and a target
with no present candidate leaves the mapping untouched. -/
theorem C6_mapping_builder_inserts_and_aliases_witness :
    dget (baseMapping [(str "A", str "1"), (str "B", str "2")]) (str "A") = some (str "1") ∧
    dget (baseMapping [(str "a", str "1"), (str "B", str "2")]) (normalize_key (str "a"))
      = some (str "1") ∧
    aliasLoop [(str "B", str "2")] (str "T") [] ([str "X"] ++ str "B" :: [str "C"])
      = dset (dset [] (str "T") (str "2")) (normalize_key (str "T")) (str "2") ∧
    aliasLoop [] (str "T") [(str "K", str "9")] [str "Z"] = [(str "K", str "9")] := by
  refine ⟨?_, ?_, ?_, ?_⟩
  · exact C6_mapping_builder_inserts_and_aliases.1 [] (str "A") (str "1")
      [(str "B", str "2")] (by decide)
  · exact C6_mapping_builder_inserts_and_aliases.2.1 [] (str "a") (str "1")
      [(str "B", str "2")] (by decide)
  · exact C6_mapping_builder_inserts_and_aliases.2.2.1 [(str "B", str "2")] (str "T") []
      [str "X"] (str "B") [str "C"] (str "2") (by decide) (Or.inl (by decide))
  · exact C6_mapping_builder_inserts_and_aliases.2.2.2.1 [] (str "T")
      [(str "K", str "9")] [str "Z"] (by decide)

theorem paragraphText_apply_font (p : Paragraph) (fn : Str) (sz : Nat) (b : Bool) :
    paragraphText (apply_font_to_paragraph p fn sz b) = paragraphText p := by
  simp only [paragraphText, apply_font_to_paragraph, List.map_map]
  rfl

theorem apply_font_twice (p : Paragraph) (fn : Str) (sz : Nat) (b1 b2 : Bool) :
    apply_font_to_paragraph (apply_font_to_paragraph p fn sz b1) fn sz b2
      = apply_font_to_paragraph p fn sz b2 := by
  simp only [apply_font_to_paragraph, List.map_map]
  rfl

theorem paragraphBoldFlag_apply_font (bd : Bool) (excC excP : List Str)
    (p : Paragraph) (fn : Str) (sz : Nat) (b : Bool) :
    paragraphBoldFlag bd excC excP (apply_font_to_paragraph p fn sz b)
      = paragraphBoldFlag bd excC excP p := by
  simp only [paragraphBoldFlag, paragraph_contains_any, paragraphText_apply_font]

theorem typographyParagraph_idem (fn : Str) (sz : Nat) (bd : Bool)
    (excC excP : List Str) (p : Paragraph) :
    typographyParagraph fn sz bd excC excP (typographyParagraph fn sz bd excC excP p)
      = typographyParagraph fn sz bd excC excP p := by
  simp only [typographyParagraph, paragraphBoldFlag_apply_font, apply_font_twice]

/-- C8: applying the typography pass twice to a document with the same policy
yields the same document as applying it once, on the body and on every
region. -/
theorem C8_typography_pass_idempotent :
    ∀ (fn : Str) (sz : Nat) (bd : Bool) (excC excP : List Str) (doc : Document),
      typographyDocument fn sz bd excC excP (typographyDocument fn sz bd excC excP doc)
        = typographyDocument fn sz bd excC excP doc := by
  intro fn sz bd excC excP doc
  have hfun : ∀ p, typographyParagraph fn sz bd excC excP
      (typographyParagraph fn sz bd excC excP p) = typographyParagraph fn sz bd excC excP p :=
    typographyParagraph_idem fn sz bd excC excP
  simp only [typographyDocument, List.map_map]
  congr 1
  · exact List.map_congr_left (fun p _ => hfun p)
  · exact List.map_congr_left (fun ps _ => by
      simp only [Function.comp, List.map_map]
      exact List.map_congr_left (fun p _ => hfun p))

theorem endsWithDocx_append (s : Str) : endsWithDocx (s ++ str ".docx") = true := by
  simp only [endsWithDocx, lowerStr, List.map_append, decide_eq_true_eq]
  have h : (str ".docx").map Char.toLower = str ".docx" := by decide
  rw [h]
  exact List.suffix_append _ _

/-- C7: the derived output name substitutes the brace-delimited keys of the
record's mapping with sanitized values and carries the default extension; on
the concrete scenario the template with the CLIENT_NAME token and the record
mapping CLIENT_NAME to the two-word company name derives the expected name;
every derived name ends with the default extension; and the sanitizer
replaces path-unsafe characters with dashes. -/
theorem C7_derived_output_name :
    deriveName (str "Letter - \x7bCLIENT_NAME\x7d.docx")
        (build_mapping_for_record [(str "CLIENT_NAME", str "Acme Co")])
      = str "Letter - Acme Co.docx" ∧
    (∀ (tmpl : Str) (m : Dict), endsWithDocx (deriveName tmpl m) = true) ∧
    safe_filename (str "Acme/Co: R*D?") = str "Acme-Co- R-D-" := by
  refine ⟨by decide, ?_, by decide⟩
  intro tmpl m
  simp only [deriveName]
  split
  · assumption
  · exact endsWithDocx_append _

/-- C9: the batch loop aggregates, in order, exactly the per-record outputs of
process_one applied to the shared template value, so the output produced for
each record is a function of the template, that record and the configuration
alone, and the entry for position i is process_one of record i regardless of
the other records. -/
theorem C9_batch_records_independent :
    (∀ (template : Document) (cfg : Config) (records : List Dict)
        (acc : DictOf Document),
      batchLoop template cfg records acc
        = (records.map (fun r => process_one template r cfg)).foldl
            (fun a nv => dset a nv.1 nv.2) acc) ∧
    (∀ (template : Document) (cfg : Config) (records : List Dict) (i : Nat)
        (h : i < records.length),
      (records.map (fun r => process_one template r cfg)).get ⟨i, by simpa using h⟩
        = process_one template (records.get ⟨i, h⟩) cfg) := by
  constructor
  · intro template cfg records
    induction records with
    | nil => intro acc; rfl
    | cons r rest ih =>
      intro acc
      rw [batchLoop, List.map_cons, List.foldl_cons]
      exact ih _
  · intro template cfg records i h
    simp

/-- Witness for C9 at a concrete two-record batch: the entry at position one
is process_one of the second record alone. -/
theorem C9_batch_records_independent_witness :
    ([[(str "A", str "1")], [(str "A", str "2")]].map
        (fun r => process_one ⟨[], []⟩ r
          ⟨str "Calibri", 11, true, [], [], str "out.docx"⟩)).get ⟨1, by simp⟩
      = process_one ⟨[], []⟩
          ([[(str "A", str "1")], [(str "A", str "2")]].get ⟨1, by simp⟩)
          ⟨str "Calibri", 11, true, [], [], str "out.docx"⟩ :=
  C9_batch_records_independent.2 ⟨[], []⟩
    ⟨str "Calibri", 11, true, [], [], str "out.docx"⟩
    [[(str "A", str "1")], [(str "A", str "2")]] 1 (by simp)

end App
